import Mathlib

set_option maxRecDepth 8000

/-!
Shallow embedding of the core of `src/bot.py` (Link-arrange-bot):
the extractor `parse_bulk_output` and the renderer `format_output`,
together with the decision logic of `format_command`.

Strings are modelled as `List Char` (Python strings are sequences of
code points).  The regular expression

  `S(\d+)-E(\d+).*?(480|720|1080).*?(https://t\.me/[^\s]+)`

is compiled by hand into a backtracking matcher with Python `re`
semantics: `\d` and `\s` are modelled by their ASCII parts (the inputs
of interest are ASCII), `.` matches any character except a newline
(no DOTALL flag is set in the source), `.*?` is lazy, `\d+` and
`[^\s]+` are greedy with backtracking, alternation tries branches left
to right, and `finditer` scans left to right returning non-overlapping
matches.  Python dicts are modelled as insertion-ordered association
lists with unique keys; `sorted` with a key function is a stable sort,
modelled by insertion sort (any two stable sorts by the same key agree
on every input, so this is exact).
-/

/-- Convert a Lean string literal to the `List Char` representation. -/
def sl (s : String) : List Char := s.data

/-- ASCII part of Python's whitespace class `\s`. -/
def isSpaceC (c : Char) : Bool :=
  c = ' ' || c = '\t' || c = '\n' || c = '\r' || c = '\x0b' || c = '\x0c'

/-- ASCII part of Python's digit class `\d`. -/
def isDigitC (c : Char) : Bool := c.isDigit

/-- One match of the episode pattern: its span in the text and the four
captured groups (season, episode, quality, url). -/
structure EpMatch where
  start : Nat
  len : Nat
  season : List Char
  episode : List Char
  quality : List Char
  url : List Char
deriving DecidableEq

/-- Split off the maximal digit prefix (the greedy reach of `\d+`). -/
def takeDigits (s : List Char) : List Char × List Char :=
  (s.takeWhile isDigitC, s.dropWhile isDigitC)

/-- Match `https://t\.me/[^\s]+` exactly at the head of `s`; returns the
captured URL and the number of characters consumed. -/
def matchUrlAt (s : List Char) : Option (List Char × Nat) :=
  if (sl "https://t.me/").isPrefixOf s then
    let tok := (s.drop 13).takeWhile (fun c => !(isSpaceC c))
    if tok = [] then none
    else some (sl "https://t.me/" ++ tok, 13 + tok.length)
  else none

/-- Lazy scan for `.*?(https://t\.me/[^\s]+)`: find the least offset `j`
(crossing no newline, since `.` does not match one) at which the URL
matches; returns `(j, url, consumed after j)`. -/
def scanUrl : List Char → Option (Nat × List Char × Nat)
  | [] => none
  | c :: rest =>
    match matchUrlAt (c :: rest) with
    | some (u, n) => some (0, u, n)
    | none =>
      if c = '\n' then none
      else
        match scanUrl rest with
        | some (j, u, n) => some (j + 1, u, n)
        | none => none

/-- Match the alternation `(480|720|1080)` at the head of `s` (branches
tried left to right; their first characters are pairwise distinct). -/
def matchQualAt (s : List Char) : Option (List Char × Nat) :=
  if (sl "480").isPrefixOf s then some (sl "480", 3)
  else if (sl "720").isPrefixOf s then some (sl "720", 3)
  else if (sl "1080").isPrefixOf s then some (sl "1080", 4)
  else none

/-- Try quality here, then the URL tail `.*?(https://t\.me/[^\s]+)`
after it; fails if either part fails from this position. -/
def tryQualUrlHere (s : List Char) : Option (List Char × List Char × Nat) :=
  match matchQualAt s with
  | some (q, qn) =>
    match scanUrl (s.drop qn) with
    | some (j2, u, un) => some (q, u, qn + j2 + un)
    | none => none
  | none => none

/-- Lazy scan for `.*?(480|720|1080).*?(https://t\.me/[^\s]+)`: the
first `.*?` expands one non-newline character at a time; a quality hit
whose URL tail fails is backtracked past (longer `.*?`).  Returns
`(quality, url, total consumed)`. -/
def scanQualUrl : List Char → Option (List Char × List Char × Nat)
  | [] => none
  | c :: rest =>
    match tryQualUrlHere (c :: rest) with
    | some r => some r
    | none =>
      if c = '\n' then none
      else
        match scanQualUrl rest with
        | some (q, u, n) => some (q, u, n + 1)
        | none => none

/-- Backtracking for the episode `\d+` (greedy, longest split first):
`ds` is the maximal digit run after `E`, `rest` the text after it; try
giving `k` digits to the group and the remainder to the lazy tail.
Returns `(episode digits, quality, url, consumed after the E)`. -/
def tryEpLens (ds rest : List Char) : Nat → Option (List Char × List Char × List Char × Nat)
  | 0 => none
  | k + 1 =>
    match scanQualUrl (ds.drop (k + 1) ++ rest) with
    | some (q, u, n) => some (ds.take (k + 1), q, u, k + 1 + n)
    | none => tryEpLens ds rest k

/-- Match `-E(\d+).*?(480|720|1080).*?(https://t\.me/[^\s]+)` at the
head of `s`. -/
def afterDashE (s : List Char) : Option (List Char × List Char × List Char × Nat) :=
  match s with
  | '-' :: 'E' :: r =>
    let p := takeDigits r
    match tryEpLens p.1 p.2 p.1.length with
    | some (ep, q, u, n) => some (ep, q, u, 2 + n)
    | none => none
  | _ => none

/-- Backtracking for the season `\d+` (greedy): only the maximal run can
succeed, since a shorter split leaves a digit where `-` is required, but
the search is modelled faithfully. -/
def trySeasonLens (sd rest : List Char) :
    Nat → Option (List Char × List Char × List Char × List Char × Nat)
  | 0 => none
  | k + 1 =>
    match afterDashE (sd.drop (k + 1) ++ rest) with
    | some (ep, q, u, n) => some (sd.take (k + 1), ep, q, u, k + 1 + n)
    | none => trySeasonLens sd rest k

/-- Match the full pattern anchored at the head of `s`.  The `start`
field is filled in by the caller. -/
def matchAt (s : List Char) : Option EpMatch :=
  match s with
  | 'S' :: r =>
    let p := takeDigits r
    match trySeasonLens p.1 p.2 p.1.length with
    | some (sea, ep, q, u, n) =>
      some { start := 0, len := 1 + n, season := sea, episode := ep,
             quality := q, url := u }
    | none => none
  | _ => none

/-- `re.finditer` semantics: scan start positions left to right; after a
match of length `len` resume at its end (non-overlapping); after a
failure advance one position.  `i` is the absolute index of the head of
the remaining text.  The `fuel` argument only makes the recursion
structural: every step removes at least one character, so the remaining
length never exceeds the remaining fuel and the `0`-fuel branch is
reached only with the empty text. -/
def findAllF : Nat → List Char → Nat → List EpMatch
  | 0, _, _ => []
  | _ + 1, [], _ => []
  | fuel + 1, c :: rest, i =>
    match matchAt (c :: rest) with
    | some m => { m with start := i } :: findAllF fuel (rest.drop (m.len - 1)) (i + m.len)
    | none => findAllF fuel rest (i + 1)

/-- The full scan of a text, with provably sufficient fuel. -/
def findAll (s : List Char) (i : Nat) : List EpMatch := findAllF s.length s i

/-- Association-list lookup: Python `d[k]` / `k in d` for an
insertion-ordered dict with unique keys. -/
def dlookup {α : Type} (k : List Char) : List (List Char × α) → Option α
  | [] => none
  | (k', v) :: t => if k' = k then some v else dlookup k t

/-- Python `d[k] = v`: overwrite in place if the key is present
(keeping its position), otherwise append at the end. -/
def dictSet {α : Type} (k : List Char) (v : α) : List (List Char × α) → List (List Char × α)
  | [] => [(k, v)]
  | (k', v') :: t => if k' = k then (k', v) :: t else (k', v') :: dictSet k v t

/-- Per-episode mapping from quality tier (as the matched string) to
URL — the inner dict of `parse_bulk_output`. -/
abbrev LinkTable := List (List Char × List Char)

/-- Mapping from episode key to link table — the `episodes` dict. -/
abbrev Episodes := List (List Char × LinkTable)

/-- Python `str.strip()` (ASCII whitespace part). -/
def pyStrip (s : List Char) : List Char :=
  ((s.dropWhile isSpaceC).reverse.dropWhile isSpaceC).reverse

/-- Python `str.zfill(w)` on an unsigned digit string: left-pad with
zeros up to width `w`, never truncate. -/
def zfill (w : Nat) (s : List Char) : List Char :=
  List.replicate (w - s.length) '0' ++ s

/-- `ep_key = f"E{episode.zfill(2)}"`. -/
def epKeyOf (m : EpMatch) : List Char := 'E' :: zfill 2 m.episode

/-- One loop iteration of `parse_bulk_output`: ensure the episode entry
exists, then `episodes[ep_key][quality] = url`. -/
def parseStep (eps : Episodes) (m : EpMatch) : Episodes :=
  dictSet (epKeyOf m) (dictSet m.quality (pyStrip m.url)
    ((dlookup (epKeyOf m) eps).getD [])) eps

/-- The accumulation loop of `parse_bulk_output` over a match list. -/
def parseMatches (ms : List EpMatch) : Episodes := ms.foldl parseStep []

/-- `parse_bulk_output` from `src/bot.py`. -/
def parse_bulk_output (text : List Char) : Episodes :=
  parseMatches (findAll text 0)

/-- `int(...)` on the digit string after the key's `E` prefix. -/
def digitsToNat (s : List Char) : Nat :=
  s.foldl (fun n c => n * 10 + (c.toNat - 48)) 0

/-- The sort key `lambda x: int(x[0][1:])`. -/
def numKey (k : List Char) : Nat := digitsToNat (k.drop 1)

/-- The `str.maketrans('0123456789', ...)` table: ASCII digits map to
mathematical bold digits, every other character is unchanged. -/
def boldDigit (c : Char) : Char :=
  if c = '0' then '𝟎' else if c = '1' then '𝟏'
  else if c = '2' then '𝟐' else if c = '3' then '𝟑'
  else if c = '4' then '𝟒' else if c = '5' then '𝟓'
  else if c = '6' then '𝟔' else if c = '7' then '𝟕'
  else if c = '8' then '𝟖' else if c = '9' then '𝟗' else c

/-- `str.translate(bold_nums)`. -/
def translateBold (s : List Char) : List Char := s.map boldDigit

/-- `f"{quality}𝐏".translate(bold_nums)` — the bold `𝐏` is not in the
table and passes through. -/
def tierLabel (q : List Char) : List Char := translateBold (q ++ ['𝐏'])

/-- One entry of `quality_links`: a hyperlink if the tier is present in
the episode's table, a strikethrough placeholder otherwise. -/
def qualityCell (tbl : LinkTable) (q : List Char) : List Char :=
  match dlookup q tbl with
  | some url => sl "<a href=\"" ++ url ++ sl "\">" ++ tierLabel q ++ sl "</a>"
  | none => sl "<s>" ++ tierLabel q ++ sl "</s>"

/-- One output line (the f-string at line 80 of `src/bot.py`; the runs
of spaces have lengths 6, 6 and 7). -/
def lineFor (e : List Char × LinkTable) : List Char :=
  sl "➪ " ++ translateBold e.1 ++ sl "      " ++ qualityCell e.2 (sl "480") ++
  sl "      " ++ qualityCell e.2 (sl "720") ++ sl "       " ++ qualityCell e.2 (sl "1080")

/-- Stable insertion by ascending numeric key: the new element goes
before the first element whose key is `≥` its own. -/
def ordInsert (a : List Char × LinkTable) : Episodes → Episodes
  | [] => [a]
  | b :: l => if numKey a.1 ≤ numKey b.1 then a :: b :: l else b :: ordInsert a l

/-- Python's `sorted(..., key=lambda x: int(x[0][1:]))`: a stable sort
by numeric episode value; stable sorts by the same key agree on every
input, so insertion sort models it exactly. -/
def sortEps : Episodes → Episodes
  | [] => []
  | a :: l => ordInsert a (sortEps l)

/-- `'\n'.join(...)`: the parts separated by single newlines. -/
def joinNl : List (List Char) → List Char
  | [] => []
  | [x] => x
  | x :: y :: t => x ++ '\n' :: joinNl (y :: t)

/-- `format_output` from `src/bot.py`. -/
def format_output (episodes : Episodes) : List Char :=
  joinNl ((sortEps episodes).map lineFor)

/-- Outcome of the `/format` handler, as seen by the user: which branch
of `format_command` runs. -/
inductive FormatResult where
  | noSession : FormatResult
  | noMessages : FormatResult
  | noValidLinks : FormatResult
  | formatted : List Char → FormatResult
deriving DecidableEq

/-- The decision logic of `format_command` from `src/bot.py` (the chat
transport is abstracted away): no session or no collected messages give
error replies; an empty parse gives the "No valid episode links found"
reply and `format_output` is never called; otherwise the rendered block
is sent framed by a header and a totals footer. -/
def format_command (hasSession : Bool) (messages : List (List Char)) : FormatResult :=
  if hasSession = false then FormatResult.noSession
  else if messages = [] then FormatResult.noMessages
  else
    let episodes := parse_bulk_output (joinNl messages)
    if episodes = [] then FormatResult.noValidLinks
    else FormatResult.formatted
      (sl "✅ <b>Formatted Episode Links:</b>\n\n" ++ format_output episodes ++
       sl "\n\n📊 Total Episodes: " ++ sl (toString episodes.length))

/-- Substring test (used to state that a fragment occurs in rendered
output). -/
def containsSub (big small : List Char) : Bool :=
  (List.range (big.length + 1)).any (fun j => small.isPrefixOf (big.drop j))

/-- The URL of the last match for a given key and quality, if any:
what last-write-wins should store. -/
def lastUrl (ms : List EpMatch) (k q : List Char) : Option (List Char) :=
  ms.foldl (fun acc m => if epKeyOf m = k ∧ m.quality = q then some (pyStrip m.url) else acc) none

/-- Two-level lookup `episodes[k][q]`. -/
def dlookup2 (eps : Episodes) (k q : List Char) : Option (List Char) :=
  match dlookup k eps with
  | some tbl => dlookup q tbl
  | none => none

/-- Well-formed URL group: the fixed scheme prefix followed by a
nonempty whitespace-free token. -/
def goodUrl (u : List Char) : Prop :=
  ∃ tok, u = sl "https://t.me/" ++ tok ∧ tok ≠ [] ∧
    tok.all (fun c => !(isSpaceC c)) = true

/-- Well-formed quality group: one of the three fixed tiers. -/
def goodQual (q : List Char) : Prop :=
  q = sl "480" ∨ q = sl "720" ∨ q = sl "1080"

/-- All four captured groups of a match are well formed and the span is
nonempty. -/
def matchProps (m : EpMatch) : Prop :=
  m.season ≠ [] ∧ m.season.all isDigitC = true ∧
  m.episode ≠ [] ∧ m.episode.all isDigitC = true ∧
  goodQual m.quality ∧ goodUrl m.url ∧ 1 ≤ m.len

/-- `small` occurs contiguously inside `big`. -/
def Sandwich (big small : List Char) : Prop := ∃ p t, big = p ++ small ++ t

/-! ### Concrete inputs used in the claims -/

/-- The spec's concrete two-line scenario. -/
def tScenario : List Char :=
  sl "S01-E01 ... 480 ... https://t.me/abc\nS01-E01 ... 720 ... https://t.me/def"

/-- Two lines with the same episode and the same tier but different
URLs. -/
def tDup : List Char :=
  sl "S01-E01 x 480 x https://t.me/abc\nS01-E01 x 480 x https://t.me/def"

/-- Two lines with different seasons and the same episode number. -/
def tSeasons : List Char :=
  sl "S01-E05 x 480 x https://t.me/a\nS02-E05 x 720 x https://t.me/b"

/-- An episode written with an extra leading zero, then without. -/
def tPad : List Char :=
  sl "S01-E005 x 480 x https://t.me/a\nS01-E05 x 720 x https://t.me/b"

/-- The same two lines in the opposite order. -/
def tPadRev : List Char :=
  sl "S01-E05 x 720 x https://t.me/b\nS01-E005 x 480 x https://t.me/a"

/-- A single line with intervening characters between the fields. -/
def tSingle : List Char := sl "S01-E05 ... 720p ... https://t.me/xyz"

/-- All four fields in order, but separated by a newline. -/
def tNewline : List Char := sl "S01-E05 480\nhttps://t.me/x"

/-- The same fields separated by a space instead. -/
def tNoNewline : List Char := sl "S01-E05 480 https://t.me/x"

/-- A line whose URL lacks the required `https://t.me/` prefix. -/
def tBadUrl : List Char := sl "S01-E05 x 720 x https://example.com/xyz"

/-- The five episodes of the spec's ordering scenario, with empty link
tables, listed in their numeric order. -/
def c3pool : Episodes :=
  [(sl "E1", []), (sl "E2", []), (sl "E9", []), (sl "E10", []), (sl "E12", [])]

/-- The three tier keys in their fixed display order. -/
def tierList : List (List Char) := [sl "480", sl "720", sl "1080"]

/-- One representative link table for each of the seven non-empty tier
subsets. -/
def allTierSubsets : List LinkTable :=
  [[(sl "480", sl "https://t.me/u4")],
   [(sl "720", sl "https://t.me/u7")],
   [(sl "1080", sl "https://t.me/u10")],
   [(sl "480", sl "https://t.me/u4"), (sl "720", sl "https://t.me/u7")],
   [(sl "480", sl "https://t.me/u4"), (sl "1080", sl "https://t.me/u10")],
   [(sl "720", sl "https://t.me/u7"), (sl "1080", sl "https://t.me/u10")],
   [(sl "480", sl "https://t.me/u4"), (sl "720", sl "https://t.me/u7"),
    (sl "1080", sl "https://t.me/u10")]]

/-- The non-season captured groups of a match: what the accumulation
actually consumes. -/
def projMatch (m : EpMatch) : List Char × List Char × List Char :=
  (m.episode, m.quality, m.url)

/-! ### Helper lemmas: the stable sort -/

/-- `ordInsert` produces a permutation of consing. -/
theorem ordInsert_perm (a : List Char × LinkTable) (l : Episodes) :
    List.Perm (ordInsert a l) (a :: l) := by
  induction l with
  | nil => simp [ordInsert]
  | cons b t ih =>
    simp only [ordInsert]
    split
    · exact List.Perm.refl _
    · exact (ih.cons b).trans (List.Perm.swap a b t)

/-- `sortEps` permutes its input. -/
theorem sortEps_perm (l : Episodes) : List.Perm (sortEps l) l := by
  induction l with
  | nil => simp [sortEps]
  | cons a t ih => exact (ordInsert_perm a (sortEps t)).trans (ih.cons a)

/-- The head of an `ordInsert` is the inserted element or the old head. -/
theorem ordInsert_head (a : List Char × LinkTable) (l : Episodes) (y : List Char × LinkTable)
    (hy : y ∈ (ordInsert a l).head?) : y = a ∨ y ∈ l.head? := by
  cases l with
  | nil => simp [ordInsert] at hy; simp [hy]
  | cons b t =>
    simp only [ordInsert] at hy
    split at hy
    · simp at hy; simp [hy]
    · simp at hy; simp [hy]

/-- Inserting preserves the ascending-key chain. -/
theorem ordInsert_chain (a : List Char × LinkTable) (l : Episodes)
    (h : List.Chain' (fun x y => numKey x.1 ≤ numKey y.1) l) :
    List.Chain' (fun x y => numKey x.1 ≤ numKey y.1) (ordInsert a l) := by
  induction l with
  | nil => simp [ordInsert]
  | cons b t ih =>
    simp only [ordInsert]
    split
    · exact List.Chain'.cons (by assumption) h
    · rename_i hab
      rw [List.chain'_cons'] at h
      rw [List.chain'_cons']
      refine ⟨?_, ih h.2⟩
      intro y hy
      rcases ordInsert_head a t y hy with rfl | hmem
      · omega
      · exact h.1 y hmem

/-- The sorted list has ascending numeric keys. -/
theorem sortEps_chain (l : Episodes) :
    List.Chain' (fun x y => numKey x.1 ≤ numKey y.1) (sortEps l) := by
  induction l with
  | nil => simp [sortEps]
  | cons a t ih => exact ordInsert_chain a (sortEps t) ih

/-- Elements whose key differs from `n` are untouched by inserting an
element with a key other than `n`. -/
theorem ordInsert_filter_ne (a : List Char × LinkTable) (l : Episodes) (n : Nat)
    (ha : numKey a.1 ≠ n) :
    (ordInsert a l).filter (fun e => numKey e.1 == n) =
      l.filter (fun e => numKey e.1 == n) := by
  have ha' : (numKey a.1 == n) = false := by simpa using ha
  induction l with
  | nil => simp [ordInsert, List.filter_cons, ha']
  | cons b t ih =>
    simp only [ordInsert]
    split
    · simp [List.filter_cons, ha']
    · simp only [List.filter_cons, ih]

/-- Inserting an element of key `n` puts it in front of every older
element of key `n` (all skipped elements have strictly smaller keys). -/
theorem ordInsert_filter_eq (a : List Char × LinkTable) (l : Episodes) (n : Nat)
    (ha : numKey a.1 = n) :
    (ordInsert a l).filter (fun e => numKey e.1 == n) =
      a :: l.filter (fun e => numKey e.1 == n) := by
  have ha' : (numKey a.1 == n) = true := by simpa using ha
  induction l with
  | nil => simp [ordInsert, List.filter_cons, ha']
  | cons b t ih =>
    simp only [ordInsert]
    split
    · simp [List.filter_cons, ha']
    · rename_i hab
      have hb : (numKey b.1 == n) = false := by
        simp only [beq_eq_false_iff_ne, ne_eq]
        omega
      simp only [List.filter_cons, hb, ih, if_neg]
      simp

/-- Stability of `sortEps`: elements with the same numeric key keep
their original relative order. -/
theorem sortEps_stable (l : Episodes) (n : Nat) :
    (sortEps l).filter (fun e => numKey e.1 == n) =
      l.filter (fun e => numKey e.1 == n) := by
  induction l with
  | nil => simp [sortEps]
  | cons a t ih =>
    simp only [sortEps]
    by_cases ha : numKey a.1 = n
    · rw [ordInsert_filter_eq a (sortEps t) n ha, ih, List.filter_cons]
      simp [ha]
    · rw [ordInsert_filter_ne a (sortEps t) n ha, ih, List.filter_cons]
      simp [ha]

/-! ### Helper lemmas: dict operations and the accumulation loop -/

/-- Looking up the key just set returns the new value. -/
theorem dlookup_dictSet_self {α : Type} (k : List Char) (v : α) (d : List (List Char × α)) :
    dlookup k (dictSet k v d) = some v := by
  induction d with
  | nil => simp [dictSet, dlookup]
  | cons e t ih =>
    obtain ⟨k', v'⟩ := e
    simp only [dictSet]
    split
    · rename_i h
      simp [dlookup, h]
    · rename_i h
      simp [dlookup, h, ih]

/-- Setting one key leaves lookups of other keys unchanged. -/
theorem dlookup_dictSet_ne {α : Type} (k k' : List Char) (v : α) (d : List (List Char × α))
    (hne : k' ≠ k) : dlookup k' (dictSet k v d) = dlookup k' d := by
  have hne' : k ≠ k' := fun h => hne h.symm
  induction d with
  | nil => simp [dictSet, dlookup, hne']
  | cons e t ih =>
    obtain ⟨k'', v''⟩ := e
    simp only [dictSet]
    split
    · rename_i h
      subst h
      simp [dlookup, hne']
    · simp only [dlookup, ih]

/-- Every entry of `dictSet` is the new binding or an old entry. -/
theorem mem_dictSet {α : Type} (k : List Char) (v : α) (d : List (List Char × α))
    (e : List Char × α) (he : e ∈ dictSet k v d) : (e.1 = k ∧ e.2 = v) ∨ e ∈ d := by
  induction d with
  | nil => simp [dictSet] at he; simp [he]
  | cons f t ih =>
    obtain ⟨k', v'⟩ := f
    simp only [dictSet] at he
    split at he
    · rename_i h
      rcases List.mem_cons.mp he with rfl | ht
      · exact Or.inl ⟨h, rfl⟩
      · exact Or.inr (List.mem_cons_of_mem _ ht)
    · rcases List.mem_cons.mp he with rfl | ht
      · exact Or.inr (List.mem_cons_self _ _)
      · rcases ih ht with h | h
        · exact Or.inl h
        · exact Or.inr (List.mem_cons_of_mem _ h)

/-- `dictSet` never yields the empty dict. -/
theorem dictSet_ne_nil {α : Type} (k : List Char) (v : α) (d : List (List Char × α)) :
    dictSet k v d ≠ [] := by
  cases d with
  | nil => simp [dictSet]
  | cons e t =>
    obtain ⟨k', v'⟩ := e
    simp only [dictSet]
    split <;> simp

/-- A successful lookup exhibits a member. -/
theorem dlookup_mem {α : Type} (k : List Char) (d : List (List Char × α)) (v : α)
    (h : dlookup k d = some v) : (k, v) ∈ d := by
  induction d with
  | nil => simp [dlookup] at h
  | cons e t ih =>
    obtain ⟨k', v'⟩ := e
    simp only [dlookup] at h
    split at h
    · rename_i hk
      subst hk
      simp at h
      simp [h]
    · exact List.mem_cons_of_mem _ (ih h)

/-- Effect of one accumulation step on a two-level lookup: the step for
match `m` overwrites exactly the cell `(epKeyOf m, m.quality)`. -/
theorem dlookup2_parseStep (eps : Episodes) (m : EpMatch) (k q : List Char) :
    dlookup2 (parseStep eps m) k q =
      if epKeyOf m = k ∧ m.quality = q then some (pyStrip m.url)
      else dlookup2 eps k q := by
  by_cases hk : epKeyOf m = k
  · subst hk
    simp only [dlookup2, parseStep, dlookup_dictSet_self]
    by_cases hq : m.quality = q
    · subst hq
      simp [dlookup_dictSet_self]
    · rw [dlookup_dictSet_ne _ _ _ _ (fun h => hq h.symm)]
      simp only [hq, and_false, if_false]
      cases h : dlookup (epKeyOf m) eps with
      | none => simp [dlookup]
      | some tbl => simp
  · simp only [dlookup2, parseStep]
    rw [dlookup_dictSet_ne _ _ _ _ (fun h => hk h.symm)]
    simp [hk]

/-- The accumulated two-level lookup is a left fold of last-write-wins
updates over the match list. -/
theorem dlookup2_foldl (ms : List EpMatch) (eps : Episodes) (k q : List Char) :
    dlookup2 (ms.foldl parseStep eps) k q =
      ms.foldl (fun acc m =>
        if epKeyOf m = k ∧ m.quality = q then some (pyStrip m.url) else acc)
        (dlookup2 eps k q) := by
  induction ms generalizing eps with
  | nil => simp
  | cons m ms ih =>
    simp only [List.foldl_cons]
    rw [ih, dlookup2_parseStep]

/-- `parse_bulk_output` stores, for each key and quality, exactly the
URL of the last match carrying that key and quality. -/
theorem parse_lastUrl (text : List Char) (k q : List Char) :
    dlookup2 (parse_bulk_output text) k q = lastUrl (findAll text 0) k q := by
  have h := dlookup2_foldl (findAll text 0) [] k q
  simpa [parse_bulk_output, parseMatches, lastUrl, dlookup2, dlookup] using h

/-- Every key of the accumulated dict is the episode key of some match
(or was present before the loop). -/
theorem foldl_keys (ms : List EpMatch) (eps : Episodes) (e : List Char × LinkTable)
    (he : e ∈ ms.foldl parseStep eps) :
    (∃ m ∈ ms, e.1 = epKeyOf m) ∨ e ∈ eps := by
  induction ms generalizing eps with
  | nil => exact Or.inr he
  | cons m ms ih =>
    simp only [List.foldl_cons] at he
    rcases ih (parseStep eps m) he with h | h
    · rcases h with ⟨m', hm', hk⟩
      exact Or.inl ⟨m', List.mem_cons_of_mem _ hm', hk⟩
    · rcases mem_dictSet _ _ _ _ h with ⟨hk, _⟩ | h'
      · exact Or.inl ⟨m, List.mem_cons_self _ _, hk⟩
      · exact Or.inr h'

/-- Quality keys stored by the loop all come from matches (assuming the
same about what was there before). -/
theorem foldl_qualities (P : List Char → Prop) (ms : List EpMatch) (eps : Episodes)
    (hms : ∀ m ∈ ms, P m.quality)
    (heps : ∀ e ∈ eps, ∀ p ∈ e.2, P p.1) :
    ∀ e ∈ ms.foldl parseStep eps, ∀ p ∈ e.2, P p.1 := by
  induction ms generalizing eps with
  | nil => exact heps
  | cons m ms ih =>
    simp only [List.foldl_cons]
    refine ih (parseStep eps m) (fun m' hm' => hms m' (List.mem_cons_of_mem _ hm')) ?_
    intro e he p hp
    rcases mem_dictSet _ _ _ _ he with ⟨hk, hv⟩ | h'
    · rw [hv] at hp
      rcases mem_dictSet _ _ _ _ hp with ⟨hq, _⟩ | hp'
      · rw [hq]
        exact hms m (List.mem_cons_self _ _)
      · cases hlk : dlookup (epKeyOf m) eps with
        | none => rw [hlk] at hp'; simp at hp'
        | some tbl =>
          rw [hlk] at hp'
          simp only [Option.getD_some] at hp'
          exact heps _ (dlookup_mem _ _ _ hlk) p hp'
    · exact heps e h' p hp

/-! ### Helper lemmas: shape of the captured groups -/

/-- Everything `takeWhile` keeps satisfies the predicate. -/
theorem all_takeWhile {α : Type} (p : α → Bool) (l : List α) :
    (l.takeWhile p).all p = true := by
  induction l with
  | nil => rfl
  | cons a t ih =>
    simp only [List.takeWhile]
    cases h : p a with
    | false => rfl
    | true => simp [h, ih]

/-- A nonempty prefix of a nonempty list is nonempty. -/
theorem take_ne_nil {α : Type} (l : List α) (k : Nat) (hl : l ≠ []) (hk : 1 ≤ k) :
    l.take k ≠ [] := by
  cases l with
  | nil => exact absurd rfl hl
  | cons a t =>
    cases k with
    | zero => omega
    | succ k => simp [List.take]

/-- Members of a `take` satisfy what all members of the list satisfy. -/
theorem all_take {α : Type} (p : α → Bool) (l : List α) (k : Nat)
    (h : l.all p = true) : (l.take k).all p = true := by
  rw [List.all_eq_true] at h ⊢
  intro a ha
  exact h a (List.mem_of_mem_take ha)

/-- The URL matcher yields a well-formed URL. -/
theorem matchUrlAt_good (s u : List Char) (n : Nat)
    (h : matchUrlAt s = some (u, n)) : goodUrl u := by
  simp only [matchUrlAt] at h
  split at h
  · split at h
    · exact absurd h (by simp)
    · rename_i htok
      simp only [Option.some_inj, Prod.mk.injEq] at h
      exact ⟨_, h.1.symm, htok, all_takeWhile _ _⟩
  · exact absurd h (by simp)

/-- The lazy URL scan yields a well-formed URL. -/
theorem scanUrl_good (s : List Char) (j : Nat) (u : List Char) (n : Nat)
    (h : scanUrl s = some (j, u, n)) : goodUrl u := by
  induction s generalizing j n with
  | nil => simp [scanUrl] at h
  | cons c rest ih =>
    simp only [scanUrl] at h
    split at h
    · rename_i u' n' heq
      simp only [Option.some_inj, Prod.mk.injEq] at h
      obtain ⟨-, rfl, -⟩ := h
      exact matchUrlAt_good _ _ _ heq
    · split at h
      · exact absurd h (by simp)
      · split at h
        · rename_i j' u' n' heq
          simp only [Option.some_inj, Prod.mk.injEq] at h
          obtain ⟨-, rfl, -⟩ := h
          exact ih _ _ heq
        · exact absurd h (by simp)

/-- The quality matcher yields one of the three tiers. -/
theorem matchQualAt_good (s q : List Char) (n : Nat)
    (h : matchQualAt s = some (q, n)) : goodQual q := by
  simp only [matchQualAt] at h
  split at h
  · simp only [Option.some_inj, Prod.mk.injEq] at h
    exact Or.inl h.1.symm
  · split at h
    · simp only [Option.some_inj, Prod.mk.injEq] at h
      exact Or.inr (Or.inl h.1.symm)
    · split at h
      · simp only [Option.some_inj, Prod.mk.injEq] at h
        exact Or.inr (Or.inr h.1.symm)
      · exact absurd h (by simp)

/-- Quality-then-URL at a fixed spot: both groups well formed. -/
theorem tryQualUrlHere_good (s q u : List Char) (n : Nat)
    (h : tryQualUrlHere s = some (q, u, n)) : goodQual q ∧ goodUrl u := by
  simp only [tryQualUrlHere] at h
  split at h
  · rename_i q' qn heq
    split at h
    · rename_i j2 u' un heq2
      simp only [Option.some_inj, Prod.mk.injEq] at h
      obtain ⟨rfl, rfl, -⟩ := h
      exact ⟨matchQualAt_good _ _ _ heq, scanUrl_good _ _ _ _ heq2⟩
    · exact absurd h (by simp)
  · exact absurd h (by simp)

/-- The combined lazy scan: both groups well formed. -/
theorem scanQualUrl_good (s q u : List Char) (n : Nat)
    (h : scanQualUrl s = some (q, u, n)) : goodQual q ∧ goodUrl u := by
  induction s generalizing n with
  | nil => simp [scanQualUrl] at h
  | cons c rest ih =>
    simp only [scanQualUrl] at h
    split at h
    · rename_i r heq
      obtain ⟨q', u', n'⟩ := r
      simp only [Option.some_inj, Prod.mk.injEq] at h
      obtain ⟨rfl, rfl, -⟩ := h
      exact tryQualUrlHere_good _ _ _ _ heq
    · split at h
      · exact absurd h (by simp)
      · split at h
        · rename_i q' u' n' heq
          simp only [Option.some_inj, Prod.mk.injEq] at h
          obtain ⟨rfl, rfl, -⟩ := h
          exact ih _ heq
        · exact absurd h (by simp)

/-- Episode backtracking: the group is a nonempty initial segment of the
digit run, and the later groups are well formed. -/
theorem tryEpLens_good (ds rest : List Char) (n : Nat) (ep q u : List Char) (c : Nat)
    (h : tryEpLens ds rest n = some (ep, q, u, c)) :
    (∃ k, 1 ≤ k ∧ k ≤ n ∧ ep = ds.take k) ∧ goodQual q ∧ goodUrl u := by
  induction n with
  | zero => simp [tryEpLens] at h
  | succ k ih =>
    simp only [tryEpLens] at h
    split at h
    · rename_i q' u' n' heq
      simp only [Option.some_inj, Prod.mk.injEq] at h
      obtain ⟨rfl, rfl, rfl, -⟩ := h
      obtain ⟨hq, hu⟩ := scanQualUrl_good _ _ _ _ heq
      exact ⟨⟨k + 1, by omega, le_rfl, rfl⟩, hq, hu⟩
    · obtain ⟨⟨k', h1, h2, h3⟩, hq, hu⟩ := ih h
      exact ⟨⟨k', h1, by omega, h3⟩, hq, hu⟩

/-- After `-E`: nonempty all-digit episode group, well-formed tail. -/
theorem afterDashE_good (s ep q u : List Char) (n : Nat)
    (h : afterDashE s = some (ep, q, u, n)) :
    ep ≠ [] ∧ ep.all isDigitC = true ∧ goodQual q ∧ goodUrl u := by
  simp only [afterDashE] at h
  split at h
  · rename_i r
    split at h
    · rename_i ep' q' u' n' heq
      simp only [Option.some_inj, Prod.mk.injEq] at h
      obtain ⟨rfl, rfl, rfl, -⟩ := h
      obtain ⟨⟨k, hk1, hk2, hk3⟩, hq, hu⟩ := tryEpLens_good _ _ _ _ _ _ _ heq
      subst hk3
      simp only [takeDigits] at hk2 ⊢
      constructor
      · apply take_ne_nil _ _ _ hk1
        intro hnil
        rw [hnil] at hk2
        simp at hk2
        omega
      · exact ⟨all_take _ _ _ (all_takeWhile _ _), hq, hu⟩
    · exact absurd h (by simp)
  · exact absurd h (by simp)

/-- Season backtracking: nonempty initial segment of the digit run,
well-formed later groups. -/
theorem trySeasonLens_good (sd rest : List Char) (n : Nat)
    (sea ep q u : List Char) (c : Nat)
    (h : trySeasonLens sd rest n = some (sea, ep, q, u, c)) :
    (∃ k, 1 ≤ k ∧ k ≤ n ∧ sea = sd.take k) ∧
      ep ≠ [] ∧ ep.all isDigitC = true ∧ goodQual q ∧ goodUrl u := by
  induction n with
  | zero => simp [trySeasonLens] at h
  | succ k ih =>
    simp only [trySeasonLens] at h
    split at h
    · rename_i ep' q' u' n' heq
      simp only [Option.some_inj, Prod.mk.injEq] at h
      obtain ⟨rfl, rfl, rfl, rfl, -⟩ := h
      exact ⟨⟨k + 1, by omega, le_rfl, rfl⟩, afterDashE_good _ _ _ _ _ heq⟩
    · obtain ⟨⟨k', h1, h2, h3⟩, hrest⟩ := ih h
      exact ⟨⟨k', h1, by omega, h3⟩, hrest⟩

/-- A successful anchored match has well-formed groups and a nonempty
span. -/
theorem matchAt_good (s : List Char) (m : EpMatch)
    (h : matchAt s = some m) : matchProps m := by
  simp only [matchAt] at h
  split at h
  · rename_i r
    split at h
    · rename_i sea ep q u n heq
      obtain ⟨⟨k, hk1, hk2, hk3⟩, hep, hepd, hq, hu⟩ := trySeasonLens_good _ _ _ _ _ _ _ _ heq
      subst hk3
      simp only [Option.some_inj] at h
      subst h
      refine ⟨?_, ?_, hep, hepd, hq, hu, by simp⟩
      · simp only [takeDigits] at hk2 ⊢
        apply take_ne_nil _ _ _ hk1
        intro hnil
        rw [hnil] at hk2
        simp at hk2
        omega
      · simp only [takeDigits]
        exact all_take _ _ _ (all_takeWhile _ _)
    · exact absurd h (by simp)
  · exact absurd h (by simp)

/-! ### Helper lemmas: the finditer loop -/

/-- Every reported match starts at or after the scan position and has
well-formed groups (for every fuel value: running out of fuel only
truncates the list). -/
theorem findAll_mem_aux (fuel : Nat) :
    ∀ (s : List Char) (i : Nat) (m : EpMatch),
      m ∈ findAllF fuel s i → i ≤ m.start ∧ matchProps m := by
  induction fuel with
  | zero =>
    intro s i m hm
    simp [findAllF] at hm
  | succ fuel ih =>
    intro s i m hm
    cases s with
    | nil => simp [findAllF] at hm
    | cons c rest =>
      simp only [findAllF] at hm
      split at hm
      · rename_i m0 heq
        rcases List.mem_cons.mp hm with rfl | htail
        · refine ⟨le_refl _, ?_⟩
          have hgood := matchAt_good _ _ heq
          simpa [matchProps] using hgood
        · obtain ⟨h1, h2⟩ := ih _ _ _ htail
          exact ⟨by omega, h2⟩
      · obtain ⟨h1, h2⟩ := ih _ _ _ hm
        exact ⟨by omega, h2⟩

/-- Wrapper: matches of `findAll text i` start at or after `i` and are
well formed. -/
theorem findAll_good (text : List Char) (i : Nat) (m : EpMatch)
    (hm : m ∈ findAll text i) : i ≤ m.start ∧ matchProps m :=
  findAll_mem_aux text.length text i m hm

/-- The reported matches are non-overlapping, in left-to-right order:
each match ends at or before the next one starts. -/
theorem findAll_chain_aux (fuel : Nat) :
    ∀ (s : List Char) (i : Nat),
      List.Chain' (fun a b => a.start + a.len ≤ b.start) (findAllF fuel s i) := by
  induction fuel with
  | zero =>
    intro s i
    simp [findAllF]
  | succ fuel ih =>
    intro s i
    cases s with
    | nil => simp [findAllF]
    | cons c rest =>
      simp only [findAllF]
      split
      · rename_i m0 heq
        rw [List.chain'_cons']
        constructor
        · intro y hy
          have hy' := List.mem_of_mem_head? hy
          have hge := (findAll_mem_aux fuel _ _ _ hy').1
          simp only
          omega
        · exact ih _ _
      · exact ih _ _

/-- Wrapper: non-overlap of the match list. -/
theorem findAll_chain (text : List Char) (i : Nat) :
    List.Chain' (fun a b => a.start + a.len ≤ b.start) (findAll text i) :=
  findAll_chain_aux text.length text i

/-- The accumulation loop never empties a nonempty dict. -/
theorem foldl_parseStep_ne_nil (ms : List EpMatch) (eps : Episodes) (h : eps ≠ []) :
    ms.foldl parseStep eps ≠ [] := by
  induction ms generalizing eps with
  | nil => exact h
  | cons m ms ih => exact ih (parseStep eps m) (dictSet_ne_nil _ _ _)

/-- The parsed index is empty exactly when no match was found. -/
theorem parse_empty_iff (text : List Char) :
    findAll text 0 = [] ↔ parse_bulk_output text = [] := by
  constructor
  · intro h
    simp [parse_bulk_output, parseMatches, h]
  · intro h
    cases hms : findAll text 0 with
    | nil => rfl
    | cons m ms =>
      have hne := foldl_parseStep_ne_nil ms (parseStep [] m) (dictSet_ne_nil _ _ _)
      rw [parse_bulk_output, parseMatches, hms] at h
      simp only [List.foldl_cons] at h
      exact absurd h hne

/-! ### Helper lemmas: locating fragments inside the rendered output -/

/-- Occurrence is transitive. -/
theorem sandwich_trans {b m s : List Char} (h1 : Sandwich b m) (h2 : Sandwich m s) :
    Sandwich b s := by
  obtain ⟨p1, t1, rfl⟩ := h1
  obtain ⟨p2, t2, rfl⟩ := h2
  exact ⟨p1 ++ p2, t2 ++ t1, by simp [List.append_assoc]⟩

/-- A list is a Boolean prefix of itself extended. -/
theorem isPrefixOf_self_append (s t : List Char) : s.isPrefixOf (s ++ t) = true := by
  induction s with
  | nil => simp [List.isPrefixOf]
  | cons a as ih => simp [List.isPrefixOf, ih]

/-- Dropping the left summand of an append. -/
theorem drop_len_append (p r : List Char) : (p ++ r).drop p.length = r := by
  induction p with
  | nil => simp
  | cons a as ih => simp [ih]

/-- An occurrence makes the Boolean substring test true. -/
theorem containsSub_of_sandwich (big small : List Char) (h : Sandwich big small) :
    containsSub big small = true := by
  obtain ⟨p, t, rfl⟩ := h
  simp only [containsSub, List.any_eq_true]
  refine ⟨p.length, ?_, ?_⟩
  · simp only [List.mem_range, List.length_append]
    omega
  · rw [List.append_assoc, drop_len_append]
    exact isPrefixOf_self_append _ _

/-- Every part occurs inside the newline join. -/
theorem joinNl_sandwich (ls : List (List Char)) (a : List Char) (ha : a ∈ ls) :
    Sandwich (joinNl ls) a := by
  induction ls with
  | nil => simp at ha
  | cons x t ih =>
    cases t with
    | nil =>
      simp at ha
      subst ha
      exact ⟨[], [], by simp [joinNl]⟩
    | cons y t2 =>
      rcases List.mem_cons.mp ha with rfl | hmem
      · exact ⟨[], Char.ofNat 10 :: joinNl (y :: t2), by simp [joinNl]⟩
      · obtain ⟨p, q, heq⟩ := ih hmem
        refine ⟨x ++ Char.ofNat 10 :: p, q, ?_⟩
        simp [joinNl, heq, List.append_assoc]

/-- Each tier's cell occurs inside its episode's line. -/
theorem line_cell_sandwich (e : List Char × LinkTable) (q : List Char)
    (hq : goodQual q) : Sandwich (lineFor e) (qualityCell e.2 q) := by
  rcases hq with rfl | rfl | rfl
  · exact ⟨sl "➪ " ++ translateBold e.1 ++ sl "      ",
      sl "      " ++ qualityCell e.2 (sl "720") ++ sl "       " ++
        qualityCell e.2 (sl "1080"),
      by simp [lineFor, List.append_assoc]⟩
  · exact ⟨sl "➪ " ++ translateBold e.1 ++ sl "      " ++ qualityCell e.2 (sl "480") ++
        sl "      ",
      sl "       " ++ qualityCell e.2 (sl "1080"),
      by simp [lineFor, List.append_assoc]⟩
  · exact ⟨sl "➪ " ++ translateBold e.1 ++ sl "      " ++ qualityCell e.2 (sl "480") ++
        sl "      " ++ qualityCell e.2 (sl "720") ++ sl "       ", [],
      by simp [lineFor, List.append_assoc]⟩

/-- A linked cell starts with the anchor tag holding the stored URL. -/
theorem cell_link_sandwich (tbl : LinkTable) (q url : List Char)
    (h : dlookup q tbl = some url) :
    Sandwich (qualityCell tbl q) (sl "<a href=\"" ++ url ++ sl "\">") :=
  ⟨[], tierLabel q ++ sl "</a>", by simp [qualityCell, h, List.append_assoc]⟩

/-- Every episode's line occurs inside the rendered output. -/
theorem out_line_sandwich (eps : Episodes) (e : List Char × LinkTable) (he : e ∈ eps) :
    Sandwich (format_output eps) (lineFor e) := by
  have h1 : e ∈ sortEps eps := ((sortEps_perm eps).mem_iff).mpr he
  exact joinNl_sandwich _ _ (List.mem_map_of_mem lineFor h1)

/-- Any URL stored in the parsed index appears in the rendered output as
a link target. -/
theorem url_in_output (text k q url : List Char) (tbl : LinkTable)
    (hk : (k, tbl) ∈ parse_bulk_output text) (hq : dlookup q tbl = some url) :
    containsSub (format_output (parse_bulk_output text))
      (sl "<a href=\"" ++ url ++ sl "\">") = true := by
  have hqgood : goodQual q :=
    foldl_qualities goodQual (findAll text 0) []
      (fun m hm => (findAll_good text 0 m hm).2.2.2.2.2.1) (by simp)
      (k, tbl) hk (q, url) (dlookup_mem _ _ _ hq)
  refine containsSub_of_sandwich _ _ ?_
  exact sandwich_trans
    (sandwich_trans (out_line_sandwich _ _ hk) (line_cell_sandwich (k, tbl) q hqgood))
    (cell_link_sandwich _ _ _ hq)

/-! ### Helper lemmas: uniqueness of the sorted order -/

/-- Two key-sorted lists that are permutations of each other, with
pairwise-distinct numeric keys, are identical.  Hence the rendered
order is determined by the key multiset alone, independent of the
insertion order. -/
theorem sorted_unique :
    ∀ (z w : Episodes), List.Perm z w →
      List.Chain' (fun a b => numKey a.1 ≤ numKey b.1) z →
      List.Chain' (fun a b => numKey a.1 ≤ numKey b.1) w →
      (z.map (fun e => numKey e.1)).Nodup → z = w := by
  haveI : IsTrans (List Char × LinkTable) (fun a b => numKey a.1 ≤ numKey b.1) :=
    ⟨fun _ _ _ h1 h2 => le_trans h1 h2⟩
  intro z
  induction z with
  | nil =>
    intro w hp _ _ _
    exact hp.nil_eq
  | cons a z ih =>
    intro w hp hcz hcw hnd
    cases w with
    | nil => exact absurd hp.symm.nil_eq (by simp)
    | cons b w =>
      have hpz := List.chain'_iff_pairwise.mp hcz
      have hpw := List.chain'_iff_pairwise.mp hcw
      have hba : b = a := by
        have hbmem : b ∈ a :: z := hp.symm.subset (List.mem_cons_self b w)
        have hamem : a ∈ b :: w := hp.subset (List.mem_cons_self a z)
        rcases List.mem_cons.mp hbmem with rfl | hbz
        · rfl
        · rcases List.mem_cons.mp hamem with rfl | haw
          · rfl
          · have h1 : numKey a.1 ≤ numKey b.1 :=
              (List.pairwise_cons.mp hpz).1 b hbz
            have h2 : numKey b.1 ≤ numKey a.1 :=
              (List.pairwise_cons.mp hpw).1 a haw
            have heq : numKey a.1 = numKey b.1 := le_antisymm h1 h2
            have : numKey b.1 ∈ z.map (fun e => numKey e.1) :=
              List.mem_map_of_mem _ hbz
            rw [← heq] at this
            exact absurd this (List.nodup_cons.mp hnd).1
      subst hba
      have htail : z = w := by
        refine ih w (hp.cons_inv) hcz.tail hcw.tail ?_
        exact (List.nodup_cons.mp hnd).2
      rw [htail]

/-! ### Helper lemmas: the season group is never consumed -/

/-- One accumulation step depends only on the episode, quality and URL
groups of the match, not on its season group or span. -/
theorem parseStep_proj (eps : Episodes) (m m' : EpMatch)
    (h : projMatch m = projMatch m') : parseStep eps m = parseStep eps m' := by
  simp only [projMatch, Prod.mk.injEq] at h
  obtain ⟨h1, h2, h3⟩ := h
  simp [parseStep, epKeyOf, h1, h2, h3]

/-- The whole accumulation depends only on the projected groups. -/
theorem foldl_parseStep_proj :
    ∀ (ms ms' : List EpMatch), ms.map projMatch = ms'.map projMatch →
      ∀ eps, ms.foldl parseStep eps = ms'.foldl parseStep eps := by
  intro ms
  induction ms with
  | nil =>
    intro ms' h eps
    cases ms' with
    | nil => rfl
    | cons m t => simp at h
  | cons m t ih =>
    intro ms' h eps
    cases ms' with
    | nil => simp at h
    | cons m' t' =>
      simp only [List.map_cons, List.cons.injEq] at h
      simp only [List.foldl_cons]
      rw [parseStep_proj eps m m' h.1]
      exact ih t' h.2 (parseStep eps m')

/-! ### The claims -/

/-- C1, counterexample: the claim says `render({})` does not produce a
string, not even the empty one; but `format_output` applied to the
empty index returns exactly the empty string. -/
theorem C1_counterexample : format_output [] = [] := rfl

/-- C1, amended: `format_output` on the empty index returns the empty
string; the `EmptyInput` condition is signalled by the caller
`format_command`, which checks the parsed index for emptiness and
replies with the "No valid episode links found" error instead of
invoking `format_output` (and replies with a distinct error when no
messages were collected at all). -/
theorem C1_empty_render :
    format_output [] = [] ∧
    format_command true [] = FormatResult.noMessages ∧
    (∀ msgs : List (List Char), msgs ≠ [] →
      parse_bulk_output (joinNl msgs) = [] →
      format_command true msgs = FormatResult.noValidLinks) := by
  refine ⟨rfl, rfl, ?_⟩
  intro msgs h1 h2
  simp [format_command, h1, h2]

/-- Witness for C1: a session holding one unmatchable message ends in
the "no valid links" reply. -/
theorem C1_empty_render_witness :
    format_command true [sl "hello"] = FormatResult.noValidLinks :=
  C1_empty_render.2.2 [sl "hello"] (by simp) (by decide)

/-- C2, counterexample: on input with two matches for the same episode
and tier, the extractor matches a record with URL `https://t.me/abc`,
yet the rendered output does not contain that URL at all — so the
round trip does not recover every matched record's URL. -/
theorem C2_counterexample :
    (findAll tDup 0).map projMatch =
      [(sl "01", sl "480", sl "https://t.me/abc"),
       (sl "01", sl "480", sl "https://t.me/def")] ∧
    containsSub (format_output (parse_bulk_output tDup)) (sl "https://t.me/abc") = false := by
  exact ⟨by decide, by decide⟩

/-- C2, amended: every URL stored in the extracted index (for a
duplicated (episode, tier) pair that is the last-occurring match's URL)
appears character-for-character in the rendered output as a link
target; and the concrete scenario behaves exactly as claimed: the
two-line input yields the index mapping E01 to 480 and 720 links, and
the single rendered line links abc under bold 480P, def under bold
720P, and strikes 1080P through with no link. -/
theorem C2_roundtrip :
    (∀ (text k q url : List Char) (tbl : LinkTable),
      (k, tbl) ∈ parse_bulk_output text → dlookup q tbl = some url →
      containsSub (format_output (parse_bulk_output text))
        (sl "<a href=\"" ++ url ++ sl "\">") = true) ∧
    parse_bulk_output tScenario =
      [(sl "E01", [(sl "480", sl "https://t.me/abc"),
                   (sl "720", sl "https://t.me/def")])] ∧
    format_output (parse_bulk_output tScenario) =
      sl "➪ E𝟎𝟏      <a href=\"https://t.me/abc\">𝟒𝟖𝟎𝐏</a>      <a href=\"https://t.me/def\">𝟕𝟐𝟎𝐏</a>       <s>𝟏𝟎𝟖𝟎𝐏</s>" := by
  exact ⟨fun text k q url tbl hk hq => url_in_output text k q url tbl hk hq,
    by decide, by decide⟩

/-- Witness for C2: the first stored URL of the concrete scenario is a
link target in its rendered output. -/
theorem C2_roundtrip_witness :
    containsSub (format_output (parse_bulk_output tScenario))
      (sl "<a href=\"" ++ sl "https://t.me/abc" ++ sl "\">") = true :=
  C2_roundtrip.1 tScenario (sl "E01") (sl "480") (sl "https://t.me/abc")
    [(sl "480", sl "https://t.me/abc"), (sl "720", sl "https://t.me/def")]
    (by decide) (by decide)

/-- C3: the renderer emits one line per episode in ascending numeric
key order (sorted chain, a permutation of the index, one line each);
and every insertion order of the episodes E1, E2, E9, E10, E12 renders
them in exactly that numeric sequence — not the lexicographic one. -/
theorem C3_ordering :
    (∀ eps : Episodes,
      List.Chain' (fun a b => numKey a.1 ≤ numKey b.1) (sortEps eps) ∧
      List.Perm (sortEps eps) eps ∧
      format_output eps = joinNl ((sortEps eps).map lineFor) ∧
      (sortEps eps).length = eps.length) ∧
    (∀ l : Episodes, List.Perm l c3pool →
      (sortEps l).map Prod.fst =
        [sl "E1", sl "E2", sl "E9", sl "E10", sl "E12"]) := by
  constructor
  · intro eps
    exact ⟨sortEps_chain eps, sortEps_perm eps, rfl, (sortEps_perm eps).length_eq⟩
  · intro l hl
    have hperm : List.Perm (sortEps l) c3pool := (sortEps_perm l).trans hl
    have heq : sortEps l = c3pool := by
      refine sorted_unique _ _ hperm (sortEps_chain l) ?_ ?_
      · simp only [c3pool, List.chain'_cons, List.chain'_singleton]
        exact ⟨by decide, by decide, by decide, by decide⟩
      have hmap := hperm.map (fun e => numKey e.1)
      rw [hmap.nodup_iff]
      decide
    rw [heq]
    decide

/-- Witness for C3: one scrambled insertion order of the five episodes
sorts to the claimed sequence. -/
theorem C3_ordering_witness :
    (sortEps [(sl "E10", []), (sl "E2", []), (sl "E12", []),
              (sl "E1", []), (sl "E9", [])]).map Prod.fst =
      [sl "E1", sl "E2", sl "E9", sl "E10", sl "E12"] := by
  apply C3_ordering.2
  decide

/-- C4: last-write-wins — for every text, key and tier, the stored URL
is exactly the URL of the last match with that key and tier (no error
possible, the update is total); any stored URL is a link target in the
rendered output; and on the concrete duplicate input the later URL is
stored and rendered. -/
theorem C4_last_write_wins :
    (∀ (text k q : List Char),
      dlookup2 (parse_bulk_output text) k q = lastUrl (findAll text 0) k q) ∧
    (∀ (text k q url : List Char),
      dlookup2 (parse_bulk_output text) k q = some url →
      containsSub (format_output (parse_bulk_output text))
        (sl "<a href=\"" ++ url ++ sl "\">") = true) ∧
    parse_bulk_output tDup = [(sl "E01", [(sl "480", sl "https://t.me/def")])] ∧
    containsSub (format_output (parse_bulk_output tDup))
      (sl "<a href=\"https://t.me/def\">") = true := by
  refine ⟨parse_lastUrl, ?_, by decide, by decide⟩
  intro text k q url h
  rw [dlookup2] at h
  cases hk : dlookup k (parse_bulk_output text) with
  | none => rw [hk] at h; exact absurd h (by simp)
  | some tbl =>
    rw [hk] at h
    exact url_in_output text k q url tbl (dlookup_mem _ _ _ hk) h

/-- Witness for C4: the surviving URL of the duplicate input is a link
target in the rendered output. -/
theorem C4_last_write_wins_witness :
    containsSub (format_output (parse_bulk_output tDup))
      (sl "<a href=\"" ++ sl "https://t.me/def" ++ sl "\">") = true :=
  C4_last_write_wins.2.1 tDup (sl "E01") (sl "480") (sl "https://t.me/def") (by decide)

/-- C5: the extractor is total by construction (it is a plain function
into `Episodes`); the empty input yields the empty index, and more
generally the index is empty exactly when the pattern matched nowhere —
a valid result, not an error. -/
theorem C5_extract_total :
    parse_bulk_output (sl "") = [] ∧
    (∀ text : List Char, findAll text 0 = [] ↔ parse_bulk_output text = []) :=
  ⟨rfl, parse_empty_iff⟩

/-- C6: every key of the extracted index is the marker `E` followed by
the match's episode digits zero-filled to width 2; `zfill` pads only up
to width 2, keeps length-2-or-more digit strings unchanged (so values
of three or more digits keep their natural width), and never truncates:
the result length is `max 2` of the input length; episode 5 gives key
digits 05, episode 12 gives 12, episode 100 gives 100. -/
theorem C6_episode_key :
    (∀ (text k : List Char) (tbl : LinkTable),
      (k, tbl) ∈ parse_bulk_output text →
      ∃ m, m ∈ findAll text 0 ∧ k = 'E' :: zfill 2 m.episode) ∧
    (∀ ds : List Char, 2 ≤ ds.length → zfill 2 ds = ds) ∧
    (∀ ds : List Char, (zfill 2 ds).length = max 2 ds.length) ∧
    zfill 2 (sl "5") = sl "05" ∧ zfill 2 (sl "12") = sl "12" ∧
    zfill 2 (sl "100") = sl "100" := by
  refine ⟨?_, ?_, ?_, by decide, by decide, by decide⟩
  · intro text k tbl hk
    rcases foldl_keys (findAll text 0) [] (k, tbl) hk with ⟨m, hm, hkey⟩ | h
    · exact ⟨m, hm, hkey⟩
    · simp at h
  · intro ds h
    simp [zfill, Nat.sub_eq_zero_of_le h]
  · intro ds
    simp only [zfill, List.length_append, List.length_replicate]
    omega

/-- Witness for C6: the single-line input stores its link under key
E05, built from the matched episode digits 05, and zfill keeps a
two-digit value unchanged. -/
theorem C6_episode_key_witness :
    (∃ m, m ∈ findAll tSingle 0 ∧ sl "E05" = 'E' :: zfill 2 m.episode) ∧
    zfill 2 (sl "99") = sl "99" :=
  ⟨C6_episode_key.1 tSingle (sl "E05") [(sl "720", sl "https://t.me/xyz")] (by decide),
   C6_episode_key.2.1 (sl "99") (by decide)⟩

/-- C7: for every episode line the three tiers appear in the fixed
order 480, 720, 1080; a present tier renders as a link wrapping the
bold label, an absent one as the same bold label in strikethrough
markup with no link target; this holds for each of the seven non-empty
tier subsets, and an episode with only a 720 link renders exactly as
struck 480P, linked 720P, struck 1080P. -/
theorem C7_tier_rendering :
    (∀ (e : List Char × LinkTable) (q url : List Char), goodQual q →
      (dlookup q e.2 = some url →
        containsSub (lineFor e)
          (sl "<a href=\"" ++ url ++ sl "\">" ++ tierLabel q ++ sl "</a>") = true) ∧
      (dlookup q e.2 = none →
        containsSub (lineFor e) (sl "<s>" ++ tierLabel q ++ sl "</s>") = true)) ∧
    (∀ e : List Char × LinkTable,
      lineFor e = sl "➪ " ++ translateBold e.1 ++ sl "      " ++
        qualityCell e.2 (sl "480") ++ sl "      " ++ qualityCell e.2 (sl "720") ++
        sl "       " ++ qualityCell e.2 (sl "1080")) ∧
    (allTierSubsets.all (fun tbl => tierList.all (fun q =>
      match dlookup q tbl with
      | some url => containsSub (lineFor (sl "E01", tbl))
          (sl "<a href=\"" ++ url ++ sl "\">" ++ tierLabel q ++ sl "</a>")
      | none => containsSub (lineFor (sl "E01", tbl))
          (sl "<s>" ++ tierLabel q ++ sl "</s>"))) = true) ∧
    lineFor (sl "E01", [(sl "720", sl "https://t.me/x")]) =
      sl "➪ E𝟎𝟏      <s>𝟒𝟖𝟎𝐏</s>      <a href=\"https://t.me/x\">𝟕𝟐𝟎𝐏</a>       <s>𝟏𝟎𝟖𝟎𝐏</s>" := by
  refine ⟨?_, fun e => rfl, by decide, by decide⟩
  intro e q url hq
  constructor
  · intro h
    refine containsSub_of_sandwich _ _ ?_
    have hs := line_cell_sandwich e q hq
    rw [show qualityCell e.2 q =
        sl "<a href=\"" ++ url ++ sl "\">" ++ tierLabel q ++ sl "</a>" from by
      simp [qualityCell, h]] at hs
    exact hs
  · intro h
    refine containsSub_of_sandwich _ _ ?_
    have hs := line_cell_sandwich e q hq
    rw [show qualityCell e.2 q = sl "<s>" ++ tierLabel q ++ sl "</s>" from by
      simp [qualityCell, h]] at hs
    exact hs

/-- Witness for C7: the only-720 episode has a struck 480 placeholder
in its line. -/
theorem C7_tier_rendering_witness :
    containsSub (lineFor (sl "E01", [(sl "720", sl "https://t.me/x")]))
      (sl "<s>" ++ tierLabel (sl "480") ++ sl "</s>") = true :=
  (C7_tier_rendering.1 (sl "E01", [(sl "720", sl "https://t.me/x")])
    (sl "480") (sl "unused") (Or.inl rfl)).2 (by decide)

/-- C8: the season group is parsed (it is a captured group of every
match) but has no effect on the stored key or output: the accumulation
depends only on the episode, quality and URL groups, and the concrete
input with seasons 01 and 02 sharing episode number 05 silently merges
both links under the single key E05. -/
theorem C8_season_ignored :
    (∀ ms ms' : List EpMatch, ms.map projMatch = ms'.map projMatch →
      parseMatches ms = parseMatches ms') ∧
    (findAll tSeasons 0).map EpMatch.season = [sl "01", sl "02"] ∧
    parse_bulk_output tSeasons =
      [(sl "E05", [(sl "480", sl "https://t.me/a"),
                   (sl "720", sl "https://t.me/b")])] := by
  refine ⟨?_, by decide, by decide⟩
  intro ms ms' h
  exact foldl_parseStep_proj ms ms' h []

/-- Witness for C8: two matches differing only in the season digits
produce identical indices. -/
theorem C8_season_ignored_witness :
    parseMatches [⟨0, 30, sl "01", sl "05", sl "480", sl "https://t.me/a"⟩] =
      parseMatches [⟨0, 30, sl "77", sl "05", sl "480", sl "https://t.me/a"⟩] :=
  C8_season_ignored.1 _ _ (by decide)

/-- C9, counterexample: the claim permits arbitrary intervening
characters between the captured fields, but a newline between them
blocks the match (`.` does not match a newline without DOTALL): the
newline variant of the input yields no match while the space variant
yields one. -/
theorem C9_counterexample :
    findAll tNewline 0 = [] ∧
    findAll tNoNewline 0 =
      [⟨0, 26, sl "01", sl "05", sl "480", sl "https://t.me/x"⟩] :=
  ⟨by decide, by decide⟩

/-- C9, amended: the extractor matches the non-overlapping,
left-to-right occurrences of season number, episode number, a quality
from the three tiers, and a `https://t.me/` token of non-whitespace
characters, with arbitrary NON-NEWLINE characters permitted between
the fields (non-greedy): the single line with intervening text matches
as one record, a URL without the `t.me` prefix is simply unmatched (no
error), every match has well-formed groups, and the reported matches
are pairwise non-overlapping in text order. -/
theorem C9_matching :
    findAll tSingle 0 =
      [⟨0, 37, sl "01", sl "05", sl "720", sl "https://t.me/xyz"⟩] ∧
    findAll tBadUrl 0 = [] ∧
    (∀ text : List Char, ∀ m ∈ findAll text 0, matchProps m) ∧
    (∀ (text : List Char) (i : Nat),
      List.Chain' (fun a b => a.start + a.len ≤ b.start) (findAll text i)) := by
  refine ⟨by decide, by decide, ?_, findAll_chain⟩
  intro text m hm
  exact (findAll_good text 0 m hm).2

/-- Witness for C9: the record matched on the single concrete line has
well-formed groups. -/
theorem C9_matching_witness :
    matchProps ⟨0, 37, sl "01", sl "05", sl "720", sl "https://t.me/xyz"⟩ := by
  apply C9_matching.2.2.1 tSingle
  decide

/-- C10: an episode written E005 keeps its extra leading zero (zfill
never removes characters), producing a key distinct from E05 though
numerically equal; the index then holds both keys, and the renderer
emits two separate lines whose relative order is the first-insertion
order, because the sort is stable on equal numeric keys (shown by the
filter identity and by both insertion orders of the concrete input). -/
theorem C10_leading_zeros :
    parse_bulk_output tPad =
      [(sl "E005", [(sl "480", sl "https://t.me/a")]),
       (sl "E05", [(sl "720", sl "https://t.me/b")])] ∧
    numKey (sl "E005") = numKey (sl "E05") ∧
    sl "E005" ≠ sl "E05" ∧
    (∀ (eps : Episodes) (n : Nat),
      (sortEps eps).filter (fun e => numKey e.1 == n) =
        eps.filter (fun e => numKey e.1 == n)) ∧
    format_output (parse_bulk_output tPad) =
      lineFor (sl "E005", [(sl "480", sl "https://t.me/a")]) ++ '\n' ::
        lineFor (sl "E05", [(sl "720", sl "https://t.me/b")]) ∧
    format_output (parse_bulk_output tPadRev) =
      lineFor (sl "E05", [(sl "720", sl "https://t.me/b")]) ++ '\n' ::
        lineFor (sl "E005", [(sl "480", sl "https://t.me/a")]) :=
  ⟨by decide, by decide, by decide, sortEps_stable, by decide, by decide⟩
